import Mathlib

/-!
Verification of the scan-score-dedupe pipeline of a forum-monitoring
repository.  The Python source is shallowly embedded: strings become
`String`/`List Char`, Python floats become `ℚ` (decimal literals are exact),
Python ints become `ℤ`, `None`-able parameters become `Option`, the
PostgreSQL row store becomes an explicit list of rows, and a post source
that may raise mid-iteration becomes a pair of the yielded posts and an
optional error message.
-/

namespace RedditMonitor

/-! ## Text model: Python `re` word-boundary matching

The matcher compiles every phrase to `\b<escaped phrase>\b` with
`re.IGNORECASE` and counts occurrences with `findall` (leftmost,
non-overlapping) over the lower-cased text.  We embed texts as `List Char`.
A *word character* is `[A-Za-z0-9_]` (the `\w` class on the texts the
system handles); `\b` holds at a position iff exactly one of the two
neighbouring characters is a word character, with "outside the string"
counting as a non-word character. -/

def isWordChar (c : Char) : Bool := c.isAlphanum || c == '_'

/-- Word-character test of an optional character; out of range counts as
non-word, matching `\b` at the ends of the string. -/
def wordAt : Option Char → Bool
  | some c => isWordChar c
  | none => false

/-- Does the (nonempty) pattern `p` match at the head of `s`, where `w` says
whether the character just before `s` is a word character?  This is
`\b p \b` anchored at the current position. -/
def occursAt (p s : List Char) (w : Bool) : Bool :=
  p.isPrefixOf s
    && (w != isWordChar (p.headD ' '))
    && (isWordChar (p.getLastD ' ') != wordAt (s.drop p.length).head?)

/-- Number of positions (including the end-of-string position) at which `\b`
holds; this is what `findall` returns for an empty phrase, whose compiled
pattern `\b\b` makes only zero-width matches at boundary positions. -/
def boundaryCount : List Char → Bool → Nat
  | [], w => if w then 1 else 0
  | c :: rest, w => (if w != isWordChar c then 1 else 0) + boundaryCount rest (isWordChar c)

/-- Leftmost non-overlapping scan of `findall` for a nonempty pattern `p`:
at each position either match (count 1, resume after the match) or advance
one character.  `fuel` bounds the recursion structurally; `s.length` fuel is
always enough because every step consumes at least one character. -/
def countWF (p : List Char) : Nat → List Char → Bool → Nat
  | 0, _, _ => 0
  | _ + 1, [], _ => 0
  | fuel + 1, c :: rest, w =>
      if occursAt p (c :: rest) w then
        1 + countWF p fuel ((c :: rest).drop p.length) (isWordChar (p.getLastD ' '))
      else
        countWF p fuel rest (isWordChar c)

/-- Value of `len(pattern.findall(s))` for the compiled pattern `\b p \b`, scanning
from the start of the string (no preceding character). -/
def countOcc (p s : List Char) : Nat :=
  if p.isEmpty then boundaryCount s false else countWF p s.length s false

/-- The `re.search` scan for `\b p \b` (nonempty `p`): is there a match at any
position? -/
def searchFrom (p : List Char) : List Char → Bool → Bool
  | [], _ => false
  | c :: rest, w => occursAt p (c :: rest) w || searchFrom p rest (isWordChar c)

/-- Truthiness of `pattern.search(s)` for the compiled pattern `\b p \b`. -/
def searchOcc (p s : List Char) : Bool :=
  if p.isEmpty then boundaryCount s false != 0 else searchFrom p s false

/-- Python `s.lower()` as a character list (ASCII lowering, `Char.toLower`). -/
def lowerS (s : String) : List Char := s.data.map Char.toLower

/-! ## Rounding

Python's `round(x, 2)` on our exact decimal values: round half to even at
the second decimal. -/

/-- Floor of a rational, written with `Int.fdiv` so that it evaluates by
kernel reduction. -/
def ratFloor (q : ℚ) : ℤ := Int.fdiv q.num (q.den : ℤ)

def roundHalfEven (q : ℚ) : ℤ :=
  if q - ratFloor q < 1/2 then ratFloor q
  else if q - ratFloor q > 1/2 then ratFloor q + 1
  else if ratFloor q % 2 = 0 then ratFloor q else ratFloor q + 1

def round2 (q : ℚ) : ℚ := (roundHalfEven (q * 100) : ℚ) / 100

/-! ## Keyword matcher (`src/scanner/keyword_matcher.py`)

The taxonomy (Python dict category → phrase list) becomes an association
list; Python dict keys are unique but no proof below needs that.  The
matched-category set becomes a `Finset String`. -/

/-- One entry of `matched_keywords`. -/
structure KeywordHit where
  phrase : String
  category : String
  title_matches : Nat
  body_matches : Nat
  score : ℚ
  deriving DecidableEq, Repr

/-- The `MatchResult` dataclass of `keyword_matcher.py`. -/
structure MatchResult where
  matched : Bool
  score : ℚ
  keywords : List KeywordHit
  categories : Finset String
  deriving DecidableEq

/-- Accumulator of the `match` loop: the growing `matched_keywords` list,
`matched_categories` set and `total_score`. -/
structure MatchAcc where
  hits : List KeywordHit
  cats : Finset String
  total : ℚ
  deriving DecidableEq

/-- Body of the inner loop of `KeywordMatcher.match` for one phrase of one
category: count occurrences in title (weight 1.5) and body (weight 1.0),
apply the `miami_specific` 1.3 multiplier, record the hit. -/
def phraseStep (category : String) (text title : String) (acc : MatchAcc) (phrase : String) :
    MatchAcc :=
  let title_matches := countOcc (lowerS phrase) (lowerS title)
  let body_matches := countOcc (lowerS phrase) (lowerS text)
  if title_matches > 0 || body_matches > 0 then
    let keyword_score : ℚ := (title_matches : ℚ) * 1.5 + (body_matches : ℚ)
    let keyword_score : ℚ :=
      if category = "miami_specific" then keyword_score * 1.3 else keyword_score
    { hits := acc.hits ++ [⟨phrase, category, title_matches, body_matches, round2 keyword_score⟩]
      cats := insert category acc.cats
      total := acc.total + keyword_score }
  else acc

/-- Outer loop body of `KeywordMatcher.match`: all phrases of one category. -/
def categoryStep (text title : String) (acc : MatchAcc) (entry : String × List String) :
    MatchAcc :=
  entry.2.foldl (phraseStep entry.1 text title) acc

/-- Embedding of `KeywordMatcher.match(text, title)` (named `matchText`; `match` is a
Lean keyword).  Normalizes the accumulated score, adds the category
diversity bonus, caps at 1 and rounds to 2 decimals. -/
def matchText (keywords : List (String × List String)) (text title : String) : MatchResult :=
  let acc := keywords.foldl (categoryStep text title) ⟨[], ∅, 0⟩
  let normalized_score := min (acc.total / 10) 1
  let category_bonus := min ((acc.cats.card : ℚ) * 0.1) 0.3
  let final_score := min (normalized_score + category_bonus) 1
  { matched := decide (0 < acc.hits.length)
    score := round2 final_score
    keywords := acc.hits
    categories := acc.cats }

/-- Embedding of `KeywordMatcher.quick_match(text, title)`: search the compiled patterns
over the lower-cased combined string `f"{title} {text}"`, short-circuiting
on the first hit. -/
def quickMatch (keywords : List (String × List String)) (text title : String) : Bool :=
  let combined := (title.data ++ ' ' :: text.data).map Char.toLower
  keywords.any fun entry => entry.2.any fun phrase => searchOcc (lowerS phrase) combined

/-! ## Engagement scorer (`calculate_engagement_score`) -/

/-- A normalized post record as produced by the post source.  The Python
dict fields the core reads, with the `.get(..., default)` defaults made
total. -/
structure Post where
  reddit_id : String
  title : String
  body : String
  upvotes : ℤ
  comment_count : ℤ
  post_age_hours : ℚ
  locked : Bool
  archived : Bool
  nsfw : Bool
  deriving DecidableEq, Repr

/-- Embedding of `calculate_engagement_score(post, keyword_score)`: freshness bonus,
volume bonuses, composite capped at 1, tier thresholds applied to the
(unrounded) composite, returned score rounded to 2 decimals. -/
def calculateEngagementScore (post : Post) (keyword_score : ℚ) : ℚ × String :=
  let upvotes := post.upvotes
  let comments := post.comment_count
  let age_hours := post.post_age_hours
  let freshness_bonus : ℚ := if age_hours < 6 then 0.2 else if age_hours < 12 then 0.1 else 0
  let engagement_score : ℚ :=
    (if 5 ≤ upvotes ∧ upvotes ≤ 100 then 0.15 else 0)
      + (if 3 ≤ comments ∧ comments ≤ 50 then 0.15 else 0)
  let final_score := keyword_score * 0.6 + engagement_score + freshness_bonus
  let final_score := min final_score 1
  let level : String :=
    if final_score ≥ 0.7 then "high" else if final_score ≥ 0.4 then "medium" else "low"
  (round2 final_score, level)

/-! ## Scan orchestrator (`src/scanner/subreddit_monitor.py`)

The post source generator (`reddit.get_subreddit_posts`), an external
collaborator, is modelled as a function from the requested limit to the
list of posts it yields before either finishing or raising: a mid-batch
exception becomes `(yielded posts so far, some error_message)`. -/

structure ScannerConfig where
  scan_interval_minutes : ℤ := 30
  max_posts_per_subreddit : ℤ := 25
  min_relevance_score : ℚ := 0.6
  post_max_age_hours : ℚ := 24
  subreddits : List String :=
    ["WholesaleRealestate", "wholesaling", "realestateinvesting", "flipping",
     "RealEstate", "CommercialRealEstate",
     "FloridaRealEstate", "florida", "Miami", "tampa", "orlando", "jacksonville"]
  deriving DecidableEq

def defaultScannerConfig : ScannerConfig := {}

/-- Python's `x or default` for an optional int parameter: `None` and `0`
are falsy and select the default. -/
def pyOrInt : Option ℤ → ℤ → ℤ
  | none, d => d
  | some n, d => if n = 0 then d else n

/-- Python's `x or default` for an optional float parameter: `None` and
`0.0` are falsy and select the default. -/
def pyOrRat : Option ℚ → ℚ → ℚ
  | none, d => d
  | some q, d => if q = 0 then d else q

/-- The opportunity record built in `scan_subreddit`: the post dict merged
with the scoring fields. -/
structure Opportunity where
  post : Post
  relevance_score : ℚ
  engagement_potential : String
  matched_keywords : List KeywordHit
  matched_categories : Finset String
  deriving DecidableEq

structure ScanResult where
  subreddit : String
  posts_scanned : ℕ
  opportunities_found : ℕ
  opportunities : List Opportunity
  errors : Option String
  deriving DecidableEq

/-- The source model: the posts the generator yields, then an optional
exception message raised at the end of iteration. -/
def FetchOutcome := List Post × Option String

/-- Stable insertion into a descending-by-key list: walk past strictly
greater keys, so an element inserted later is placed after earlier equal
keys. -/
def insertDescBy {α : Type} (key : α → ℚ) (x : α) : List α → List α
  | [] => [x]
  | y :: ys => if key x < key y then y :: insertDescBy key x ys else x :: y :: ys

/-- Stable descending sort by key — the behaviour of Python's stable
`list.sort(key=..., reverse=True)`. -/
def sortDescBy {α : Type} (key : α → ℚ) : List α → List α
  | [] => []
  | x :: xs => insertDescBy key x (sortDescBy key xs)

/-- The `for post in ...` loop body of `scan_subreddit`: count the post,
apply the filter chain with `continue` on first failure, append the
surviving opportunity. -/
def scanLoop (cfg : ScannerConfig) (kw : List (String × List String)) (min_score : ℚ) :
    List Post → ℕ → List Opportunity → ℕ × List Opportunity
  | [], n, opps => (n, opps)
  | post :: rest, n, opps =>
      let n' := n + 1
      if post.post_age_hours > cfg.post_max_age_hours then
        scanLoop cfg kw min_score rest n' opps
      else if post.locked || post.archived then
        scanLoop cfg kw min_score rest n' opps
      else if post.nsfw then
        scanLoop cfg kw min_score rest n' opps
      else
        let match_result := matchText kw post.body post.title
        if !match_result.matched then
          scanLoop cfg kw min_score rest n' opps
        else
          let scored := calculateEngagementScore post match_result.score
          if scored.1 < min_score then
            scanLoop cfg kw min_score rest n' opps
          else
            scanLoop cfg kw min_score rest n'
              (opps ++ [⟨post, scored.1, scored.2, match_result.keywords,
                match_result.categories⟩])

/-- Embedding of `SubredditMonitor.scan_subreddit`: default the falsy parameters from
config, iterate the source inside try/except (the source's error ends up
in `errors`, the posts yielded before it are still processed), sort the
collected opportunities by descending relevance. -/
def scanSubreddit (cfg : ScannerConfig) (kw : List (String × List String))
    (fetch : ℤ → FetchOutcome) (subreddit_name : String)
    (limit : Option ℤ) (min_score : Option ℚ) : ScanResult :=
  let limit := pyOrInt limit cfg.max_posts_per_subreddit
  let min_score := pyOrRat min_score cfg.min_relevance_score
  let fetched := fetch limit
  let scanned := scanLoop cfg kw min_score fetched.1 0 []
  let opportunities := sortDescBy (fun o => o.relevance_score) scanned.2
  { subreddit := subreddit_name
    posts_scanned := scanned.1
    opportunities_found := opportunities.length
    opportunities := opportunities
    errors := fetched.2 }

/-- Embedding of `SubredditMonitor.scan_all_subreddits`: default the subreddit list from
config (`subreddits or self.config.subreddits`), then scan each scope
independently, yielding one `ScanResult` per scope. -/
def scanAllSubreddits (cfg : ScannerConfig) (kw : List (String × List String))
    (source : String → ℤ → FetchOutcome) (subreddits : Option (List String))
    (limit_per_sub : Option ℤ) (min_score : Option ℚ) : List ScanResult :=
  let subs :=
    match subreddits with
    | none => cfg.subreddits
    | some l => if l.isEmpty then cfg.subreddits else l
  subs.map fun s => scanSubreddit cfg kw (source s) s limit_per_sub min_score

/-! ## Opportunity store (`src/database/queries.py`)

The `opportunities` table becomes a list of rows (with the columns the
claims mention); `INSERT ... ON CONFLICT (reddit_id) DO NOTHING RETURNING
id` is the insert-or-ignore the spec's store contract demands of the
unique `reddit_id` key.  `NOW()` becomes an explicit `now` argument. -/

structure OppRow where
  id : ℕ
  reddit_id : String
  status : String
  created_at : ℚ
  relevance_score : ℚ
  deriving DecidableEq, Repr

structure OppStore where
  rows : List OppRow
  next_id : ℕ
  deriving DecidableEq

/-- Embedding of `OpportunityQueries.exists`: `SELECT 1 FROM opportunities WHERE
reddit_id = %s` is non-empty. -/
def existsRid (st : OppStore) (rid : String) : Bool :=
  st.rows.any fun r => r.reddit_id == rid

/-- Embedding of `OpportunityQueries.create`: insert-or-ignore keyed on `reddit_id`;
on conflict no row is inserted and `RETURNING id` yields nothing, so the
call returns `none`.  New rows get `status = "pending"` (the dict default)
and `created_at = now`. -/
def createOpportunity (st : OppStore) (opp : Opportunity) (now : ℚ) : Option ℕ × OppStore :=
  if existsRid st opp.post.reddit_id then (none, st)
  else
    (some st.next_id,
     { rows := st.rows ++
         [⟨st.next_id, opp.post.reddit_id, "pending", now, opp.relevance_score⟩]
       next_id := st.next_id + 1 })

/-- Default of the `hours` parameter of `expire_old_opportunities`. -/
def expireDefaultHours : ℚ := 48

/-- Embedding of `OpportunityQueries.expire_old_opportunities`: `UPDATE opportunities
SET status = 'expired' WHERE status = 'pending' AND created_at < NOW() -
INTERVAL '%s hours'`, returning the cursor's `rowcount`. -/
def expireOldOpportunities (st : OppStore) (now : ℚ) (hours : ℚ) : ℕ × OppStore :=
  (st.rows.countP (fun r => r.status == "pending" && decide (r.created_at < now - hours)),
   { st with
      rows := st.rows.map fun r =>
        if r.status = "pending" ∧ r.created_at < now - hours then
          { r with status := "expired" }
        else r })

/-! ## Lambda handler opportunity processing (`lambda/scanner/handler.py`)

The per-opportunity loop of `scan_and_notify`: skip if `exists`, else
`create`; an opportunity enters `all_opportunities` (the notification
candidates) only when `create` returned an id. -/

def handlerLoop (now : ℚ) : OppStore → List Opportunity → OppStore × List (ℕ × Opportunity)
  | st, [] => (st, [])
  | st, opp :: rest =>
      if existsRid st opp.post.reddit_id then handlerLoop now st rest
      else
        match createOpportunity st opp now with
        | (some i, st') =>
            let r := handlerLoop now st' rest
            (r.1, (i, opp) :: r.2)
        | (none, st') => handlerLoop now st' rest

/-- The opportunities actually posted to the notification channel:
`all_opportunities` sorted by descending relevance, truncated to
`max_slack_posts`. -/
def notifiedOpportunities (now : ℚ) (st : OppStore) (opps : List Opportunity)
    (max_slack_posts : ℕ) : List (ℕ × Opportunity) :=
  (sortDescBy (fun pr => pr.2.relevance_score) (handlerLoop now st opps).2).take
    max_slack_posts

/-! ## Claim-side definitions

These formalise the wording of the specification's claims, to be compared
with the source embedding above. -/

/-- Claim C1: whole-word occurrence count of a phrase in the title. -/
def titleCount (phrase title : String) : ℕ := countOcc (lowerS phrase) (lowerS title)

/-- Claim C1: whole-word occurrence count of a phrase in the body. -/
def bodyCount (phrase text : String) : ℕ := countOcc (lowerS phrase) (lowerS text)

/-- Claim C1: a phrase with at least one whole-word occurrence in title or
body. -/
def phraseHasHit (text title phrase : String) : Bool :=
  titleCount phrase title > 0 || bodyCount phrase text > 0

/-- Claim C1: the contribution of one phrase to `total_score`:
`1.5 * title_count + 1.0 * body_count`, multiplied by 1.3 for the
designated bonus category. -/
def hitContribution (category text title phrase : String) : ℚ :=
  if phraseHasHit text title phrase then
    (1.5 * (titleCount phrase title : ℚ) + 1.0 * (bodyCount phrase text : ℚ)) *
      (if category = "miami_specific" then 1.3 else 1)
  else 0

/-- Claim C1: `total_score` as a sum over every phrase of the taxonomy. -/
def claimTotalScore (kw : List (String × List String)) (text title : String) : ℚ :=
  (kw.map fun e => (e.2.map (hitContribution e.1 text title)).sum).sum

/-- Claim C1: the set of distinct matched categories. -/
def claimMatchedCategories (kw : List (String × List String)) (text title : String) :
    Finset String :=
  ((kw.filter fun e => e.2.any (phraseHasHit text title)).map Prod.fst).toFinset

/-- The keyword-hit entry a phrase produces, if any. -/
def mkHit (category text title phrase : String) : Option KeywordHit :=
  if phraseHasHit text title phrase then
    some ⟨phrase, category, titleCount phrase title, bodyCount phrase text,
      round2 ((1.5 * (titleCount phrase title : ℚ) + 1.0 * (bodyCount phrase text : ℚ)) *
        (if category = "miami_specific" then 1.3 else 1))⟩
  else none

/-- All keyword hits of a taxonomy, in declaration order. -/
def claimKeywordHits (kw : List (String × List String)) (text title : String) :
    List KeywordHit :=
  (kw.map fun e => e.2.filterMap (mkHit e.1 text title)).flatten

/-- Claim C2: freshness bonus as worded in the spec. -/
def claimFreshnessBonus (age_hours : ℚ) : ℚ :=
  if age_hours < 6 then 0.2 else if 6 ≤ age_hours ∧ age_hours < 12 then 0.1 else 0

/-- Claim C2: the two independent volume bonuses. -/
def claimVolumeBonus (upvotes comment_count : ℤ) : ℚ :=
  (if 5 ≤ upvotes ∧ upvotes ≤ 100 then 0.15 else 0)
    + (if 3 ≤ comment_count ∧ comment_count ≤ 50 then 0.15 else 0)

/-- Claim C2: the composite before rounding. -/
def claimRawComposite (post : Post) (relevance_score : ℚ) : ℚ :=
  min (relevance_score * 0.6 + claimVolumeBonus post.upvotes post.comment_count
    + claimFreshnessBonus post.post_age_hours) 1

/-- Claim C2: the returned composite, rounded to 2 decimals. -/
def claimComposite (post : Post) (relevance_score : ℚ) : ℚ :=
  round2 (claimRawComposite post relevance_score)

/-- Claim C2: tier thresholds. -/
def claimTier (composite : ℚ) : String :=
  if composite ≥ 0.7 then "high" else if composite ≥ 0.4 then "medium" else "low"

/-- Claim C8: `t` is `s` with extra whitespace inserted between words —
every inserted space sits immediately in front of a space `s` already has,
so `s` and `t` have the same words separated by wider gaps. -/
inductive ExtraWS : List Char → List Char → Prop
  | nil : ExtraWS [] []
  | cons (c : Char) {s t : List Char} : ExtraWS s t → ExtraWS (c :: s) (c :: t)
  | dup {s t : List Char} : ExtraWS (' ' :: s) t → ExtraWS (' ' :: s) (' ' :: t)

/-- Claim C5: an arbitrary sequence of later `create` calls, returning the
final store and the per-call results. -/
def createMany (now : ℚ) : OppStore → List Opportunity → OppStore × List (Option ℕ)
  | st, [] => (st, [])
  | st, opp :: rest =>
      let r := createOpportunity st opp now
      let rr := createMany now r.2 rest
      (rr.1, r.1 :: rr.2)

/-- Sample store for concrete instantiations: one pending opportunity with
source id `"abc"` created at time 0, one reviewed opportunity with source
id `"old"` created at time 0. -/
def sampleStore : OppStore :=
  ⟨[⟨1, "abc", "pending", 0, 0.7⟩, ⟨2, "old", "reviewed", 0, 0.8⟩], 3⟩

/-- Sample opportunity whose source id collides with the stored `"abc"`. -/
def sampleOpp : Opportunity :=
  ⟨⟨"abc", "t", "b", 1, 1, 1, false, false, false⟩, 0.7, "high", [], ∅⟩

/-- Claim C3: the per-post filter chain, short-circuiting on the first
failing filter, producing the candidate opportunity with
`relevance_score = composite`. -/
def claimProcessPost (cfg : ScannerConfig) (kw : List (String × List String))
    (min_score : ℚ) (post : Post) : Option Opportunity :=
  if post.post_age_hours > cfg.post_max_age_hours then none
  else if post.locked || post.archived then none
  else if post.nsfw then none
  else
    let match_result := matchText kw post.body post.title
    if !match_result.matched then none
    else
      let scored := calculateEngagementScore post match_result.score
      if scored.1 < min_score then none
      else some ⟨post, scored.1, scored.2, match_result.keywords, match_result.categories⟩

end RedditMonitor

namespace RedditMonitor

/-! ## Keyword-matcher lemmas and theorems -/

theorem phraseStep_spec (category text title : String) (acc : MatchAcc) (phrase : String) :
    phraseStep category text title acc phrase =
      ⟨acc.hits ++ (mkHit category text title phrase).toList,
       if phraseHasHit text title phrase then insert category acc.cats else acc.cats,
       acc.total + hitContribution category text title phrase⟩ := by
  have harith :
      (if category = "miami_specific" then
        ((countOcc (lowerS phrase) (lowerS title) : ℚ) * 1.5
          + (countOcc (lowerS phrase) (lowerS text) : ℚ)) * 1.3
      else
        (countOcc (lowerS phrase) (lowerS title) : ℚ) * 1.5
          + (countOcc (lowerS phrase) (lowerS text) : ℚ))
      = (1.5 * (countOcc (lowerS phrase) (lowerS title) : ℚ)
          + 1.0 * (countOcc (lowerS phrase) (lowerS text) : ℚ)) *
          (if category = "miami_specific" then (1.3 : ℚ) else 1) := by
    split_ifs <;> ring
  simp only [phraseStep, mkHit, hitContribution, phraseHasHit, titleCount, bodyCount, harith]
  by_cases hc :
      (decide (countOcc (lowerS phrase) (lowerS title) > 0)
        || decide (countOcc (lowerS phrase) (lowerS text) > 0)) = true
  · simp [hc]
  · simp only [Bool.not_eq_true] at hc
    simp [hc]

theorem phraseFold_spec (category text title : String) (ps : List String) (acc : MatchAcc) :
    ps.foldl (phraseStep category text title) acc =
      ⟨acc.hits ++ ps.filterMap (mkHit category text title),
       if ps.any (phraseHasHit text title) then insert category acc.cats else acc.cats,
       acc.total + (ps.map (hitContribution category text title)).sum⟩ := by
  induction ps generalizing acc with
  | nil => simp
  | cons p ps ih =>
      rw [List.foldl_cons, ih, phraseStep_spec]
      simp only [List.filterMap_cons, List.any_cons, List.map_cons, List.sum_cons]
      by_cases hp : phraseHasHit text title p
      · rcases h : mkHit category text title p with _ | hit
        · rw [mkHit, if_pos hp] at h; exact absurd h (by simp)
        · simp [hp, h, add_assoc, Finset.insert_idem]
      · simp only [hp, if_false, Bool.false_or]
        rcases h : mkHit category text title p with _ | hit
        · have : hitContribution category text title p = 0 := by
            rw [hitContribution, if_neg (by simpa using hp)]
          simp [this, hp, h, add_assoc]
        · rw [mkHit, if_neg (by simpa using hp)] at h; exact absurd h (by simp)

theorem claimMatchedCategories_cons (e : String × List String)
    (kw : List (String × List String)) (text title : String) :
    claimMatchedCategories (e :: kw) text title =
      if e.2.any (phraseHasHit text title) then
        insert e.1 (claimMatchedCategories kw text title)
      else claimMatchedCategories kw text title := by
  simp only [claimMatchedCategories, List.filter_cons]
  split <;> simp

theorem categoryFold_spec (kw : List (String × List String)) (text title : String)
    (acc : MatchAcc) :
    kw.foldl (categoryStep text title) acc =
      ⟨acc.hits ++ claimKeywordHits kw text title,
       acc.cats ∪ claimMatchedCategories kw text title,
       acc.total + claimTotalScore kw text title⟩ := by
  induction kw generalizing acc with
  | nil => simp [claimKeywordHits, claimMatchedCategories, claimTotalScore]
  | cons e kw ih =>
      rw [List.foldl_cons, categoryStep, phraseFold_spec, ih, claimMatchedCategories_cons]
      simp only [claimKeywordHits, claimTotalScore, List.map_cons, List.flatten,
        List.sum_cons, MatchAcc.mk.injEq]
      refine ⟨by simp [List.append_assoc], ?_, by ring⟩
      by_cases he : e.2.any (phraseHasHit text title)
      · simp [he, Finset.insert_union, Finset.union_insert]
      · simp [he]

/-- C1.  For every keyword taxonomy and every title and body text,
`KeywordMatcher.match` returns
`round2 (min (min (total_score / 10) 1 + min (0.1 * distinct_matched_categories) 0.3) 1)`
where `total_score` sums, over every phrase with at least one whole-word
occurrence, `1.5 * title_count + 1.0 * body_count`, multiplied by 1.3 for
the `miami_specific` category. -/
theorem match_score_formula (kw : List (String × List String)) (text title : String) :
    (matchText kw text title).score =
      round2 (min (min (claimTotalScore kw text title / 10) 1
        + min (0.1 * ((claimMatchedCategories kw text title).card : ℚ)) 0.3) 1) := by
  simp only [matchText, categoryFold_spec]
  simp only [List.nil_append, Finset.empty_union, zero_add]
  rw [mul_comm]

/-- C4.  `match` returns `matched = true` exactly when the keyword-hit list
is non-empty. -/
theorem matched_iff_keywords_nonempty (kw : List (String × List String))
    (text title : String) :
    (matchText kw text title).matched = true ↔ (matchText kw text title).keywords ≠ [] := by
  simp only [matchText, categoryFold_spec]
  simp [List.length_pos]

/-! ## Engagement-scorer theorems

Concrete evaluations below use `decide`; the kernel reduces the rational
arithmetic once the arithmetic primitives of `Rat` are unfolded, so they
are made semireducible for this section. -/

section ConcreteEvaluation

attribute [local semireducible] Rat.add Rat.mul Rat.sub Rat.inv Rat.ofScientific

/-- C2 counterexample.  At `upvotes = 0`, `comment_count = 0`,
`age_hours = 3` and `relevance_score = 0.83` the unrounded composite is
`0.698`: the code rounds the returned score up to `0.70` but derives the
tier from the unrounded value, returning `(0.70, "medium")`, while the
claim's tier for the returned composite `0.70 ≥ 0.7` is `"high"`. -/
theorem engagement_tier_counterexample :
    calculateEngagementScore ⟨"p1", "t", "b", 0, 0, 3, false, false, false⟩ 0.83
      ≠ (claimComposite ⟨"p1", "t", "b", 0, 0, 3, false, false, false⟩ 0.83,
         claimTier (claimComposite ⟨"p1", "t", "b", 0, 0, 3, false, false, false⟩ 0.83)) := by
  decide

/-- C2 (amended).  For every post and relevance score in `[0, 1]`,
`calculate_engagement_score` returns the composite
`min(relevance*0.6 + volume_bonus + freshness_bonus, 1)` rounded to two
decimals, with the tier thresholds (`high ≥ 0.7`, `medium ≥ 0.4`) applied
to the composite *before* rounding. -/
theorem engagement_score_formula (post : Post) (r : ℚ) (_h0 : 0 ≤ r) (_h1 : r ≤ 1) :
    calculateEngagementScore post r =
      (claimComposite post r, claimTier (claimRawComposite post r)) := by
  have hfresh :
      (if post.post_age_hours < 6 then (0.2 : ℚ)
        else if post.post_age_hours < 12 then 0.1 else 0)
        = claimFreshnessBonus post.post_age_hours := by
    rw [claimFreshnessBonus]
    by_cases h6 : post.post_age_hours < 6
    · simp [h6]
    · by_cases h12 : post.post_age_hours < 12
      · simp [h6, h12, not_lt.1 h6]
      · simp [h6, h12]
  simp only [calculateEngagementScore, claimComposite, claimRawComposite, claimTier,
    claimVolumeBonus, hfresh]

/-- C2 witness: scenario C of the spec — relevance 0.5, 15 upvotes,
8 comments, 3.5 hours old gives composite 0.80 and tier `high`. -/
theorem engagement_score_formula_witness :
    (0 : ℚ) ≤ 0.5 ∧ (0.5 : ℚ) ≤ 1 ∧
      calculateEngagementScore ⟨"p2", "t", "b", 15, 8, 3.5, false, false, false⟩ 0.5
        = (0.8, "high") := by
  refine ⟨by norm_num, by norm_num, ?_⟩
  rw [engagement_score_formula ⟨"p2", "t", "b", 15, 8, 3.5, false, false, false⟩ 0.5
    (by norm_num) (by norm_num)]
  decide

end ConcreteEvaluation

/-! ## Stable descending sort lemmas -/

theorem mem_insertDescBy {α : Type} (key : α → ℚ) (x : α) (l : List α) (a : α) :
    a ∈ insertDescBy key x l ↔ a = x ∨ a ∈ l := by
  induction l with
  | nil => simp [insertDescBy]
  | cons y ys ih =>
      rw [insertDescBy]
      split_ifs with h
      · simp only [List.mem_cons, ih]
        tauto
      · simp only [List.mem_cons]

theorem sorted_insertDescBy {α : Type} (key : α → ℚ) (x : α) (l : List α)
    (h : l.Sorted fun a b => key b ≤ key a) :
    (insertDescBy key x l).Sorted fun a b => key b ≤ key a := by
  induction l with
  | nil => simp [insertDescBy]
  | cons y ys ih =>
      rw [List.sorted_cons] at h
      rw [insertDescBy]
      split_ifs with hxy
      · rw [List.sorted_cons]
        refine ⟨fun b hb => ?_, ih h.2⟩
        rcases (mem_insertDescBy key x ys b).1 hb with rfl | hb
        · exact le_of_lt hxy
        · exact h.1 b hb
      · rw [List.sorted_cons]
        refine ⟨fun b hb => ?_, List.sorted_cons.2 h⟩
        rcases List.mem_cons.1 hb with rfl | hb
        · exact not_lt.1 hxy
        · exact le_trans (h.1 b hb) (not_lt.1 hxy)

theorem sorted_sortDescBy {α : Type} (key : α → ℚ) (l : List α) :
    (sortDescBy key l).Sorted fun a b => key b ≤ key a := by
  induction l with
  | nil => simp [sortDescBy]
  | cons x xs ih => rw [sortDescBy]; exact sorted_insertDescBy key x _ ih

theorem filter_insertDescBy_eq {α : Type} (key : α → ℚ) (x : α) (l : List α) :
    (insertDescBy key x l).filter (fun a => decide (key a = key x)) =
      x :: l.filter (fun a => decide (key a = key x)) := by
  induction l with
  | nil => simp [insertDescBy]
  | cons y ys ih =>
      rw [insertDescBy]
      split_ifs with hxy
      · have hne : ¬ (key y = key x) := fun e => absurd hxy (by rw [e]; exact lt_irrefl _)
        simp [List.filter_cons, hne, ih]
      · simp [List.filter_cons]

theorem filter_insertDescBy_ne {α : Type} (key : α → ℚ) (x : α) (l : List α) (v : ℚ)
    (hv : key x ≠ v) :
    (insertDescBy key x l).filter (fun a => decide (key a = v)) =
      l.filter (fun a => decide (key a = v)) := by
  induction l with
  | nil => simp [insertDescBy, hv]
  | cons y ys ih =>
      rw [insertDescBy]
      split_ifs with hxy
      · simp only [List.filter_cons, ih]
      · simp [List.filter_cons, hv]

/-- Stability of the descending sort: for each key value, the sorted list
restricted to that value is exactly the input restricted to that value, in
input order. -/
theorem filter_sortDescBy {α : Type} (key : α → ℚ) (l : List α) (v : ℚ) :
    (sortDescBy key l).filter (fun a => decide (key a = v)) =
      l.filter (fun a => decide (key a = v)) := by
  induction l with
  | nil => rfl
  | cons x xs ih =>
      rw [sortDescBy]
      by_cases hv : key x = v
      · subst hv
        rw [filter_insertDescBy_eq, ih, List.filter_cons]
        simp
      · rw [filter_insertDescBy_ne key x _ v hv, ih, List.filter_cons]
        simp [hv]

/-! ## Scan orchestrator theorems -/

theorem scanLoop_spec (cfg : ScannerConfig) (kw : List (String × List String))
    (min_score : ℚ) (posts : List Post) (n : ℕ) (opps : List Opportunity) :
    scanLoop cfg kw min_score posts n opps =
      (n + posts.length, opps ++ posts.filterMap (claimProcessPost cfg kw min_score)) := by
  induction posts generalizing n opps with
  | nil => simp [scanLoop]
  | cons post rest ih =>
      simp only [scanLoop, claimProcessPost, List.filterMap_cons, List.length_cons]
      split_ifs <;>
        simp [ih, List.append_assoc, Nat.add_comm, Nat.add_assoc, Nat.add_left_comm]

/-- C3.  `scan_subreddit` applies the filter chain in order with
short-circuiting, keeps exactly the posts surviving the chain with
`relevance_score` equal to the engagement composite, counts every yielded
post, and returns the candidates sorted descending by relevance with ties
in source order. -/
theorem scan_pipeline (cfg : ScannerConfig) (kw : List (String × List String))
    (fetch : ℤ → FetchOutcome) (sub : String) (limit : Option ℤ) (min_score : Option ℚ) :
    (scanSubreddit cfg kw fetch sub limit min_score).opportunities =
        sortDescBy (fun o => o.relevance_score)
          ((fetch (pyOrInt limit cfg.max_posts_per_subreddit)).1.filterMap
            (claimProcessPost cfg kw (pyOrRat min_score cfg.min_relevance_score)))
      ∧ (scanSubreddit cfg kw fetch sub limit min_score).posts_scanned =
          (fetch (pyOrInt limit cfg.max_posts_per_subreddit)).1.length
      ∧ (scanSubreddit cfg kw fetch sub limit min_score).opportunities.Sorted
          (fun a b => b.relevance_score ≤ a.relevance_score)
      ∧ ∀ v : ℚ,
          (scanSubreddit cfg kw fetch sub limit min_score).opportunities.filter
              (fun o => decide (o.relevance_score = v)) =
            ((fetch (pyOrInt limit cfg.max_posts_per_subreddit)).1.filterMap
                (claimProcessPost cfg kw (pyOrRat min_score cfg.min_relevance_score))).filter
              (fun o => decide (o.relevance_score = v)) := by
  refine ⟨?_, ?_, ?_, ?_⟩
  · simp [scanSubreddit, scanLoop_spec]
  · simp [scanSubreddit, scanLoop_spec]
  · simp only [scanSubreddit, scanLoop_spec]
    exact sorted_sortDescBy _ _
  · intro v
    simp only [scanSubreddit, scanLoop_spec, List.nil_append]
    exact filter_sortDescBy _ _ v

/-- C6.  A source failure is captured in the `errors` field of the returned
`ScanResult` (the posts yielded before the failure are still scored and
sorted), and in a multi-scope run each scope's result is exactly its own
scan — in particular the result at index `i` does not depend on the sources
of any other scope. -/
theorem scan_failure_semantics (cfg : ScannerConfig) (kw : List (String × List String))
    (fetch : ℤ → FetchOutcome) (sub : String) (limit : Option ℤ) (min_score : Option ℚ)
    (subs : List String) (source source' : String → ℤ → FetchOutcome)
    (i : ℕ) (s : String) (hs : subs[i]? = some s) (hagree : source s = source' s) :
    (scanSubreddit cfg kw fetch sub limit min_score).errors
        = (fetch (pyOrInt limit cfg.max_posts_per_subreddit)).2
      ∧ (scanSubreddit cfg kw fetch sub limit min_score).opportunities
          = sortDescBy (fun o => o.relevance_score)
              ((fetch (pyOrInt limit cfg.max_posts_per_subreddit)).1.filterMap
                (claimProcessPost cfg kw (pyOrRat min_score cfg.min_relevance_score)))
      ∧ (scanAllSubreddits cfg kw source (some subs) limit min_score).length = subs.length
      ∧ (scanAllSubreddits cfg kw source (some subs) limit min_score)[i]? =
          some (scanSubreddit cfg kw (source s) s limit min_score)
      ∧ (scanAllSubreddits cfg kw source (some subs) limit min_score)[i]? =
          (scanAllSubreddits cfg kw source' (some subs) limit min_score)[i]? := by
  have hne : subs.isEmpty = false := by
    cases subs with
    | nil => simp at hs
    | cons a l => rfl
  refine ⟨rfl, (scan_pipeline cfg kw fetch sub limit min_score).1, ?_, ?_, ?_⟩
  · simp [scanAllSubreddits, hne]
  · simp [scanAllSubreddits, hne, List.getElem?_map, hs]
  · simp [scanAllSubreddits, hne, List.getElem?_map, hs, hagree]

/-- C10.  The falsy scan parameters `limit = 0`/`None` and
`min_score = 0.0`/`None` are replaced by the configured defaults (25 posts,
0.6 relevance); nonzero values pass through unchanged, and with a nonzero
configured default the effective value can never be zero. -/
theorem falsy_parameter_defaults :
    pyOrInt (some 0) defaultScannerConfig.max_posts_per_subreddit = 25
      ∧ pyOrRat (some 0) defaultScannerConfig.min_relevance_score = 0.6
      ∧ defaultScannerConfig.max_posts_per_subreddit = 25
      ∧ defaultScannerConfig.min_relevance_score = 0.6
      ∧ (∀ n : ℤ, n ≠ 0 → ∀ d : ℤ, pyOrInt (some n) d = n)
      ∧ (∀ q : ℚ, q ≠ 0 → ∀ d : ℚ, pyOrRat (some q) d = q)
      ∧ (∀ limit : Option ℤ, pyOrInt limit defaultScannerConfig.max_posts_per_subreddit ≠ 0)
      ∧ (∀ ms : Option ℚ, pyOrRat ms defaultScannerConfig.min_relevance_score ≠ 0)
      ∧ (∀ (cfg : ScannerConfig) (kw : List (String × List String))
          (fetch : ℤ → FetchOutcome) (sub : String),
          scanSubreddit cfg kw fetch sub (some 0) (some 0) =
            scanSubreddit cfg kw fetch sub none none) := by
  refine ⟨rfl, ?_, rfl, ?_, ?_, ?_, ?_, ?_, ?_⟩
  · simp [pyOrRat, defaultScannerConfig]
  · rfl
  · intro n hn d; simp [pyOrInt, hn]
  · intro q hq d; simp [pyOrRat, hq]
  · intro limit
    rcases limit with _ | n
    · simp [pyOrInt, defaultScannerConfig]
    · rw [pyOrInt]
      split_ifs with h
      · simp [defaultScannerConfig]
      · exact h
  · intro ms
    rcases ms with _ | q
    · simp [pyOrRat, defaultScannerConfig]
      norm_num
    · rw [pyOrRat]
      split_ifs with h
      · simp [defaultScannerConfig]
        norm_num
      · exact h
  · intro cfg kw fetch sub
    simp [scanSubreddit, pyOrInt, pyOrRat]

/-- C6 witness: a source that yields nothing and then raises `"boom"`
produces a `ScanResult` carrying the error, and in a two-scope run where
the first scope errors the second scope's slot is still its own scan. -/
theorem scan_failure_semantics_witness :
    (scanSubreddit defaultScannerConfig [("deal_types", ["probate"])]
        (fun _ => ([], some "boom")) "x" none none).errors = some "boom"
      ∧ (scanAllSubreddits defaultScannerConfig [("deal_types", ["probate"])]
          (fun s _ => if s = "a" then ([], some "apiError") else ([], none))
          (some ["a", "b"]) none none)[1]? =
        some (scanSubreddit defaultScannerConfig [("deal_types", ["probate"])]
          ((fun s _ => if s = "a" then ([], some "apiError") else ([], none)) "b")
          "b" none none) := by
  have h := scan_failure_semantics defaultScannerConfig [("deal_types", ["probate"])]
    (fun _ => ([], some "boom")) "x" none none ["a", "b"]
    (fun s _ => if s = "a" then ([], some "apiError") else ([], none))
    (fun s _ => if s = "a" then ([], some "apiError") else ([], none))
    1 "b" rfl rfl
  exact ⟨h.1, h.2.2.2.1⟩

section ConcreteEvaluation2

attribute [local semireducible] Rat.add Rat.mul Rat.sub Rat.inv Rat.ofScientific

/-- C10 witness: nonzero arguments pass through unchanged. -/
theorem falsy_parameter_defaults_witness :
    pyOrInt (some 7) 25 = 7 ∧ pyOrRat (some 0.5) 0.6 = 0.5 := by
  have h := falsy_parameter_defaults
  exact ⟨h.2.2.2.2.1 7 (by decide) 25, h.2.2.2.2.2.1 0.5 (by decide) 0.6⟩

end ConcreteEvaluation2

/-! ## Opportunity-store theorems -/

theorem mem_sortDescBy {α : Type} (key : α → ℚ) (l : List α) (a : α) :
    a ∈ sortDescBy key l ↔ a ∈ l := by
  induction l with
  | nil => simp [sortDescBy]
  | cons x xs ih =>
      rw [sortDescBy, mem_insertDescBy]
      simp [ih]

theorem existsRid_create (st : OppStore) (opp : Opportunity) (now : ℚ) (R : String)
    (h : existsRid st R = true) : existsRid (createOpportunity st opp now).2 R = true := by
  rw [createOpportunity]
  split_ifs with hd
  · exact h
  · simp only [existsRid, List.any_append] at *
    simp [h]

theorem countP_create (st : OppStore) (opp : Opportunity) (now : ℚ) (R : String)
    (h : existsRid st R = true) :
    (createOpportunity st opp now).2.rows.countP (fun r => r.reddit_id == R)
      = st.rows.countP (fun r => r.reddit_id == R) := by
  rw [createOpportunity]
  split_ifs with hd
  · rfl
  · have hne : opp.post.reddit_id ≠ R := fun e => hd (by rw [e]; exact h)
    have hb : (opp.post.reddit_id == R) = false := beq_eq_false_iff_ne.mpr hne
    simp [List.countP_append, List.countP_cons, hb]

theorem createMany_duplicate (now : ℚ) (st : OppStore) (R : String)
    (h : existsRid st R = true) (opps : List Opportunity) :
    (createMany now st opps).1.rows.countP (fun r => r.reddit_id == R)
        = st.rows.countP (fun r => r.reddit_id == R)
      ∧ ∀ (j : ℕ) (opp : Opportunity), opps[j]? = some opp → opp.post.reddit_id = R →
          (createMany now st opps).2[j]? = some none := by
  induction opps generalizing st with
  | nil =>
      refine ⟨rfl, ?_⟩
      intro j opp hj
      simp [createMany] at hj
  | cons opp0 rest ih =>
      rw [createMany]
      have h' := existsRid_create st opp0 now R h
      obtain ⟨ihc, ihr⟩ := ih (createOpportunity st opp0 now).2 h'
      refine ⟨by rw [ihc, countP_create st opp0 now R h], ?_⟩
      intro j opp hj he
      cases j with
      | zero =>
          simp only [List.getElem?_cons_zero, Option.some.injEq] at hj
          subst hj
          have hc : existsRid st opp0.post.reddit_id = true := by rw [he]; exact h
          have hzero : createOpportunity st opp0 now = (none, st) := by
            rw [createOpportunity, if_pos hc]
          simp [hzero]
      | succ j =>
          simp only [List.getElem?_cons_succ] at hj ⊢
          exact ihr j opp hj he

theorem handlerLoop_cons_dup (now : ℚ) (st : OppStore) (opp0 : Opportunity)
    (rest : List Opportunity) (hex : existsRid st opp0.post.reddit_id = true) :
    handlerLoop now st (opp0 :: rest) = handlerLoop now st rest := by
  rw [handlerLoop, if_pos hex]

theorem handlerLoop_cons_new (now : ℚ) (st : OppStore) (opp0 : Opportunity)
    (rest : List Opportunity) (hex : ¬ existsRid st opp0.post.reddit_id = true) :
    handlerLoop now st (opp0 :: rest) =
      ((handlerLoop now
          (⟨st.rows ++
            [⟨st.next_id, opp0.post.reddit_id, "pending", now, opp0.relevance_score⟩],
           st.next_id + 1⟩ : OppStore) rest).1,
       (st.next_id, opp0) ::
        (handlerLoop now
          (⟨st.rows ++
            [⟨st.next_id, opp0.post.reddit_id, "pending", now, opp0.relevance_score⟩],
           st.next_id + 1⟩ : OppStore) rest).2) := by
  rw [handlerLoop, if_neg hex, createOpportunity, if_neg hex]

theorem handlerLoop_duplicate (now : ℚ) (st : OppStore) (R : String)
    (h : existsRid st R = true) (opps : List Opportunity) :
    (handlerLoop now st opps).1.rows.countP (fun r => r.reddit_id == R)
        = st.rows.countP (fun r => r.reddit_id == R)
      ∧ ∀ pr ∈ (handlerLoop now st opps).2, pr.2.post.reddit_id ≠ R := by
  induction opps generalizing st with
  | nil => exact ⟨rfl, by simp [handlerLoop]⟩
  | cons opp0 rest ih =>
      by_cases hex : existsRid st opp0.post.reddit_id = true
      · rw [handlerLoop_cons_dup now st opp0 rest hex]
        exact ih st h
      · have hne : opp0.post.reddit_id ≠ R := fun e => hex (by rw [e]; exact h)
        rw [handlerLoop_cons_new now st opp0 rest hex]
        have h' : existsRid
            (⟨st.rows ++
              [⟨st.next_id, opp0.post.reddit_id, "pending", now, opp0.relevance_score⟩],
             st.next_id + 1⟩ : OppStore) R = true := by
          simp only [existsRid, List.any_append] at *
          simp [h]
        obtain ⟨ihc, ihr⟩ := ih _ h'
        have hb : (opp0.post.reddit_id == R) = false := beq_eq_false_iff_ne.mpr hne
        constructor
        · rw [ihc]
          simp [List.countP_append, List.countP_cons, hb]
        · intro pr hpr
          rcases List.mem_cons.1 hpr with rfl | hpr
          · exact hne
          · exact ihr pr hpr

/-- C5.  Once an opportunity with a given source id is stored, a `create`
with the same source id is a no-op returning `none` (a duplicate outcome,
not an error); any later sequence of `create` calls preserves the number of
stored rows with that source id; and the handler's scan-and-notify loop
never notifies that source id again (it is skipped by the `exists` check,
so a re-fetched persisted post produces no new stored row and no
notification). -/
theorem dedupe_by_source_id (st : OppStore) (now : ℚ) (R : String)
    (hR : existsRid st R = true) :
    (∀ (opp : Opportunity) (now' : ℚ), opp.post.reddit_id = R →
        createOpportunity st opp now' = (none, st))
      ∧ (∀ opps : List Opportunity,
          (createMany now st opps).1.rows.countP (fun r => r.reddit_id == R)
            = st.rows.countP (fun r => r.reddit_id == R))
      ∧ (∀ (opps : List Opportunity) (j : ℕ) (opp : Opportunity),
          opps[j]? = some opp → opp.post.reddit_id = R →
          (createMany now st opps).2[j]? = some none)
      ∧ (∀ opps : List Opportunity,
          (handlerLoop now st opps).1.rows.countP (fun r => r.reddit_id == R)
            = st.rows.countP (fun r => r.reddit_id == R))
      ∧ (∀ (opps : List Opportunity) (k : ℕ) (pr : ℕ × Opportunity),
          pr ∈ notifiedOpportunities now st opps k → pr.2.post.reddit_id ≠ R) := by
  refine ⟨?_, fun opps => (createMany_duplicate now st R hR opps).1,
    fun opps => (createMany_duplicate now st R hR opps).2,
    fun opps => (handlerLoop_duplicate now st R hR opps).1, ?_⟩
  · intro opp now' he
    have hc : existsRid st opp.post.reddit_id = true := by rw [he]; exact hR
    rw [createOpportunity, if_pos hc]
  · intro opps k pr hpr
    have h1 : pr ∈ sortDescBy (fun pr => pr.2.relevance_score) (handlerLoop now st opps).2 :=
      List.take_subset _ _ hpr
    have h2 : pr ∈ (handlerLoop now st opps).2 := (mem_sortDescBy _ _ _).1 h1
    exact (handlerLoop_duplicate now st R hR opps).2 pr h2

/-- C5 witness: with `"abc"` already stored, a duplicate `create` is a
no-op returning `none`. -/
theorem dedupe_by_source_id_witness :
    createOpportunity sampleStore sampleOpp 5 = (none, sampleStore) := by
  have h := dedupe_by_source_id sampleStore 5 "abc" (by decide)
  exact h.1 sampleOpp 5 rfl

/-- C7.  The expiry sweep transitions to `expired` exactly the rows that
are `pending` and older than the threshold, returns the number of such
rows, leaves every other row (regardless of age) unchanged, and its
default threshold is 48 hours. -/
theorem expiry_sweep (st : OppStore) (now hours : ℚ) :
    (expireOldOpportunities st now hours).1
        = st.rows.countP (fun r => r.status == "pending" && decide (r.created_at < now - hours))
      ∧ (expireOldOpportunities st now hours).2.rows.length = st.rows.length
      ∧ (∀ i : ℕ, (expireOldOpportunities st now hours).2.rows[i]? =
          (st.rows[i]?).map fun r =>
            if r.status = "pending" ∧ r.created_at < now - hours then
              { r with status := "expired" }
            else r)
      ∧ (∀ (i : ℕ) (r : OppRow), st.rows[i]? = some r → r.status ≠ "pending" →
          (expireOldOpportunities st now hours).2.rows[i]? = some r) := by
  refine ⟨rfl, by simp [expireOldOpportunities], ?_, ?_⟩
  · intro i
    simp [expireOldOpportunities, List.getElem?_map]
  · intro i r hi hr
    simp only [expireOldOpportunities, List.getElem?_map, hi, Option.map_some',
      Option.some.injEq]
    rw [if_neg (fun hp => hr hp.1)]

/-! ## Whitespace and word-boundary lemmas for the matcher -/

theorem countWF_fuel (p : List Char) (hp : p ≠ []) :
    ∀ (f₁ f₂ : ℕ) (s : List Char) (w : Bool), s.length ≤ f₁ → s.length ≤ f₂ →
      countWF p f₁ s w = countWF p f₂ s w := by
  intro f₁
  induction f₁ with
  | zero =>
      intro f₂ s w h1 _h2
      have hs : s = [] := List.eq_nil_of_length_eq_zero (Nat.le_zero.1 h1)
      subst hs
      cases f₂ <;> rfl
  | succ g₁ ih =>
      intro f₂ s w h1 h2
      cases s with
      | nil => cases f₂ <;> rfl
      | cons c rest =>
          cases f₂ with
          | zero => simp at h2
          | succ g₂ =>
              have hplen : 0 < p.length := List.length_pos.2 hp
              simp only [countWF]
              by_cases ho : occursAt p (c :: rest) w = true
              · rw [if_pos ho, if_pos ho]
                have hlen : ((c :: rest).drop p.length).length ≤ g₁ := by
                  simp only [List.length_drop, List.length_cons] at *
                  omega
                have hlen2 : ((c :: rest).drop p.length).length ≤ g₂ := by
                  simp only [List.length_drop, List.length_cons] at *
                  omega
                rw [ih g₂ _ _ hlen hlen2]
              · rw [if_neg ho, if_neg ho]
                have hlen : rest.length ≤ g₁ := by
                  simp only [List.length_cons] at h1; omega
                have hlen2 : rest.length ≤ g₂ := by
                  simp only [List.length_cons] at h2; omega
                exact ih g₂ rest _ hlen hlen2

theorem extraWS_head_wordAt {s t : List Char} (rel : ExtraWS s t) :
    wordAt s.head? = wordAt t.head? := by
  cases rel with
  | nil => rfl
  | cons c _ => rfl
  | dup _ => rfl

theorem isPrefixOf_length_le (p : List Char) :
    ∀ s : List Char, p.isPrefixOf s = true → p.length ≤ s.length := by
  induction p with
  | nil => intro s _; simp
  | cons c p' ih =>
      intro s h
      cases s with
      | nil => exact absurd h (by simp [List.isPrefixOf])
      | cons d s₀ =>
          have h' : (c == d && p'.isPrefixOf s₀) = true := h
          have h2 : (c == d) = true ∧ p'.isPrefixOf s₀ = true := by simpa using h'
          simpa using Nat.succ_le_succ (ih s₀ h2.2)

theorem isPrefixOf_append_right (p : List Char) :
    ∀ (s rest : List Char), p.isPrefixOf s = true → p.isPrefixOf (s ++ rest) = true := by
  induction p with
  | nil => intro s rest _; cases s <;> cases rest <;> rfl
  | cons c p' ih =>
      intro s rest h
      cases s with
      | nil => exact absurd h (by simp [List.isPrefixOf])
      | cons d s₀ =>
          have h' : (c == d && p'.isPrefixOf s₀) = true := h
          have h2 : (c == d) = true ∧ p'.isPrefixOf s₀ = true := by simpa using h'
          show (c == d && p'.isPrefixOf (s₀ ++ rest)) = true
          rw [h2.1, ih s₀ rest h2.2]
          rfl

theorem extraWS_isPrefixOf (p : List Char) (hsp : ∀ c ∈ p, c ≠ ' ') :
    ∀ {s t : List Char}, ExtraWS s t →
      p.isPrefixOf s = p.isPrefixOf t ∧
        (p.isPrefixOf s = true → ExtraWS (s.drop p.length) (t.drop p.length)) := by
  induction p with
  | nil =>
      intro s t rel
      refine ⟨?_, fun _ => by simpa using rel⟩
      cases s <;> cases t <;> rfl
  | cons c p' ih =>
      intro s t rel
      have hc : c ≠ ' ' := hsp c (List.mem_cons_self _ _)
      have hsp' : ∀ x ∈ p', x ≠ ' ' := fun x hx => hsp x (List.mem_cons_of_mem _ hx)
      cases rel with
      | nil => exact ⟨rfl, by simp [List.isPrefixOf]⟩
      | @cons d s₀ t₀ rel' =>
          obtain ⟨ihe, ihd⟩ := ih hsp' rel'
          constructor
          · show (c == d && p'.isPrefixOf s₀) = (c == d && p'.isPrefixOf t₀)
            rw [ihe]
          · intro hpre
            have hpre' : (c == d && p'.isPrefixOf s₀) = true := hpre
            have h2 : (c == d) = true ∧ p'.isPrefixOf s₀ = true := by simpa using hpre'
            simp only [List.length_cons, List.drop_succ_cons]
            exact ihd h2.2
      | @dup s₀ t₀ rel' =>
          have hcb : (c == ' ') = false := beq_eq_false_iff_ne.mpr hc
          constructor
          · show (c == ' ' && p'.isPrefixOf s₀) = (c == ' ' && p'.isPrefixOf t₀)
            rw [hcb]
            rfl
          · intro hpre
            exfalso
            have hpre' : (c == ' ' && p'.isPrefixOf s₀) = true := hpre
            rw [hcb] at hpre'
            simp at hpre'

theorem occursAt_extraWS (p : List Char) (hsp : ∀ c ∈ p, c ≠ ' ')
    {s t : List Char} (rel : ExtraWS s t) (w : Bool) :
    occursAt p s w = occursAt p t w := by
  obtain ⟨he, hd⟩ := extraWS_isPrefixOf p hsp rel
  by_cases hb : p.isPrefixOf s = true
  · have hbt : p.isPrefixOf t = true := by rw [← he]; exact hb
    have hw := extraWS_head_wordAt (hd hb)
    simp only [occursAt]
    rw [hb, hbt, hw]
  · have hbf : p.isPrefixOf s = false := by revert hb; cases p.isPrefixOf s <;> simp
    have hbtf : p.isPrefixOf t = false := by rw [← he]; exact hbf
    simp only [occursAt]
    rw [hbf, hbtf]
    simp

theorem countWF_extraWS (p : List Char) (hp : p ≠ []) (hsp : ∀ c ∈ p, c ≠ ' ') :
    ∀ (N : ℕ) (s t : List Char) (w : Bool) (f₁ f₂ : ℕ), t.length ≤ N → ExtraWS s t →
      s.length ≤ f₁ → t.length ≤ f₂ → countWF p f₁ s w = countWF p f₂ t w := by
  intro N
  induction N using Nat.strong_induction_on with
  | _ N IH =>
      intro s t w f₁ f₂ hN rel hf₁ hf₂
      have hplen : 0 < p.length := List.length_pos.2 hp
      cases rel with
      | nil => cases f₁ <;> cases f₂ <;> rfl
      | @cons c s₀ t₀ rel' =>
          cases f₁ with
          | zero => simp at hf₁
          | succ g₁ =>
            cases f₂ with
            | zero => simp at hf₂
            | succ g₂ =>
              have hocc := occursAt_extraWS p hsp (ExtraWS.cons c rel') w
              simp only [countWF]
              rw [← hocc]
              by_cases ho : occursAt p (c :: s₀) w = true
              · rw [if_pos ho, if_pos ho]
                have hpre : p.isPrefixOf (c :: s₀) = true := by
                  simp only [occursAt, Bool.and_eq_true] at ho
                  exact ho.1.1
                have hpret : p.isPrefixOf (c :: t₀) = true := by
                  rw [← (extraWS_isPrefixOf p hsp (ExtraWS.cons c rel')).1]
                  exact hpre
                have hd := (extraWS_isPrefixOf p hsp (ExtraWS.cons c rel')).2 hpre
                have hplet : p.length ≤ (c :: t₀).length :=
                  isPrefixOf_length_le p _ hpret
                have hlt : ((c :: t₀).drop p.length).length < N := by
                  simp only [List.length_drop, List.length_cons] at *
                  omega
                have hG₁ : ((c :: s₀).drop p.length).length ≤ g₁ := by
                  simp only [List.length_drop, List.length_cons] at *
                  omega
                have hG₂ : ((c :: t₀).drop p.length).length ≤ g₂ := by
                  simp only [List.length_drop, List.length_cons] at *
                  omega
                rw [IH ((c :: t₀).drop p.length).length hlt _ _ _ g₁ g₂ le_rfl hd hG₁ hG₂]
              · rw [if_neg ho, if_neg ho]
                have hlt : t₀.length < N := by
                  simp only [List.length_cons] at hN; omega
                have hG₁ : s₀.length ≤ g₁ := by
                  simp only [List.length_cons] at hf₁; omega
                have hG₂ : t₀.length ≤ g₂ := by
                  simp only [List.length_cons] at hf₂; omega
                exact IH t₀.length hlt _ _ _ g₁ g₂ le_rfl rel' hG₁ hG₂
      | @dup s₀ t' rel' =>
          cases f₁ with
          | zero => simp at hf₁
          | succ g₁ =>
            cases f₂ with
            | zero => simp at hf₂
            | succ g₂ =>
              have hnp : ∀ l : List Char, p.isPrefixOf (' ' :: l) = false := by
                intro l
                cases p with
                | nil => exact absurd rfl hp
                | cons c p' =>
                    have hc : c ≠ ' ' := hsp c (List.mem_cons_self _ _)
                    have hcb : (c == ' ') = false := beq_eq_false_iff_ne.mpr hc
                    show (c == ' ' && _) = false
                    rw [hcb]
                    rfl
              have ho : ∀ (l : List Char) (w' : Bool), occursAt p (' ' :: l) w' = false := by
                intro l w'
                simp [occursAt, hnp l]
              have hlt : t'.length < N := by
                simp only [List.length_cons] at hN; omega
              have hf₂' : t'.length ≤ g₂ := by
                simp only [List.length_cons] at hf₂; omega
              have hIH := IH t'.length hlt (' ' :: s₀) t' false (g₁ + 1) g₂ le_rfl rel' hf₁ hf₂'
              simp only [countWF] at hIH ⊢
              rw [if_neg (by rw [ho s₀ w]; simp), if_neg (by rw [ho t' w]; simp)]
              rw [if_neg (by rw [ho s₀ false]; simp)] at hIH
              exact hIH

theorem countOcc_extraWS (p : List Char) (hp : p ≠ []) (hsp : ∀ c ∈ p, c ≠ ' ')
    {s t : List Char} (rel : ExtraWS s t) : countOcc p s = countOcc p t := by
  have hne : p.isEmpty = false := by
    cases p with
    | nil => exact absurd rfl hp
    | cons c p' => rfl
  simp only [countOcc, hne, Bool.false_eq_true, if_false]
  exact countWF_extraWS p hp hsp t.length s t false s.length t.length le_rfl rel le_rfl le_rfl

theorem extraWS_refl (l : List Char) : ExtraWS l l := by
  induction l with
  | nil => exact ExtraWS.nil
  | cons c l ih => exact ExtraWS.cons c ih

theorem extraWS_dup_at (u v : List Char) : ExtraWS (u ++ ' ' :: v) (u ++ ' ' :: ' ' :: v) := by
  induction u with
  | nil => exact ExtraWS.dup (extraWS_refl (' ' :: v))
  | cons c u ih => exact ExtraWS.cons c ih

theorem listFilterMap_congr {α β : Type} {l : List α} {f g : α → Option β}
    (h : ∀ a ∈ l, f a = g a) : l.filterMap f = l.filterMap g := by
  induction l with
  | nil => rfl
  | cons a l ih =>
      rw [List.filterMap_cons, List.filterMap_cons, h a (List.mem_cons_self _ _),
        ih fun x hx => h x (List.mem_cons_of_mem _ hx)]

theorem listMap_congr {α β : Type} {l : List α} {f g : α → β}
    (h : ∀ a ∈ l, f a = g a) : l.map f = l.map g := by
  induction l with
  | nil => rfl
  | cons a l ih =>
      rw [List.map_cons, List.map_cons, h a (List.mem_cons_self _ _),
        ih fun x hx => h x (List.mem_cons_of_mem _ hx)]

theorem listAny_congr {α : Type} {l : List α} {f g : α → Bool}
    (h : ∀ a ∈ l, f a = g a) : l.any f = l.any g := by
  induction l with
  | nil => rfl
  | cons a l ih =>
      rw [List.any_cons, List.any_cons, h a (List.mem_cons_self _ _),
        ih fun x hx => h x (List.mem_cons_of_mem _ hx)]

theorem claimKeywordHits_cons (e : String × List String) (kw : List (String × List String))
    (text title : String) :
    claimKeywordHits (e :: kw) text title =
      e.2.filterMap (mkHit e.1 text title) ++ claimKeywordHits kw text title := by
  simp [claimKeywordHits]

theorem claimTotalScore_cons (e : String × List String) (kw : List (String × List String))
    (text title : String) :
    claimTotalScore (e :: kw) text title =
      (e.2.map (hitContribution e.1 text title)).sum + claimTotalScore kw text title := by
  simp [claimTotalScore]

theorem hit_pieces_congr (kw : List (String × List String)) (text text' title title' : String)
    (h : ∀ e ∈ kw, ∀ ph ∈ e.2,
        countOcc (lowerS ph) (lowerS text) = countOcc (lowerS ph) (lowerS text')
          ∧ countOcc (lowerS ph) (lowerS title) = countOcc (lowerS ph) (lowerS title')) :
    claimKeywordHits kw text title = claimKeywordHits kw text' title'
      ∧ claimMatchedCategories kw text title = claimMatchedCategories kw text' title'
      ∧ claimTotalScore kw text title = claimTotalScore kw text' title' := by
  induction kw with
  | nil => exact ⟨rfl, rfl, rfl⟩
  | cons e kw ih =>
      obtain ⟨ih1, ih2, ih3⟩ := ih fun e' he' ph hph => h e' (List.mem_cons_of_mem _ he') ph hph
      have hco := h e (List.mem_cons_self _ _)
      have hHas : ∀ ph ∈ e.2, phraseHasHit text title ph = phraseHasHit text' title' ph := by
        intro ph hph
        simp only [phraseHasHit, titleCount, bodyCount, (hco ph hph).1, (hco ph hph).2]
      have hHit : ∀ ph ∈ e.2, mkHit e.1 text title ph = mkHit e.1 text' title' ph := by
        intro ph hph
        simp only [mkHit, phraseHasHit, titleCount, bodyCount, (hco ph hph).1, (hco ph hph).2]
      have hContr : ∀ ph ∈ e.2,
          hitContribution e.1 text title ph = hitContribution e.1 text' title' ph := by
        intro ph hph
        simp only [hitContribution, phraseHasHit, titleCount, bodyCount,
          (hco ph hph).1, (hco ph hph).2]
      refine ⟨?_, ?_, ?_⟩
      · rw [claimKeywordHits_cons, claimKeywordHits_cons, ih1, listFilterMap_congr hHit]
      · rw [claimMatchedCategories_cons, claimMatchedCategories_cons, ih2,
          listAny_congr hHas]
      · rw [claimTotalScore_cons, claimTotalScore_cons, ih3, listMap_congr hContr]

/-- Rewriting of `match` entirely in terms of the claim-side pieces. -/
theorem matchText_pieces (kw : List (String × List String)) (text title : String) :
    matchText kw text title =
      ⟨decide (0 < (claimKeywordHits kw text title).length),
       round2 (min (min (claimTotalScore kw text title / 10) 1 +
         min (((claimMatchedCategories kw text title).card : ℚ) * 0.1) 0.3) 1),
       claimKeywordHits kw text title,
       claimMatchedCategories kw text title⟩ := by
  simp only [matchText, categoryFold_spec, List.nil_append, Finset.empty_union, zero_add]

theorem matchText_congr (kw : List (String × List String)) (text text' title title' : String)
    (h : ∀ e ∈ kw, ∀ ph ∈ e.2,
        countOcc (lowerS ph) (lowerS text) = countOcc (lowerS ph) (lowerS text')
          ∧ countOcc (lowerS ph) (lowerS title) = countOcc (lowerS ph) (lowerS title')) :
    matchText kw text title = matchText kw text' title' := by
  obtain ⟨h1, h2, h3⟩ := hit_pieces_congr kw text text' title title' h
  rw [matchText_pieces, matchText_pieces, h1, h2, h3]

section ConcreteEvaluation3

attribute [local semireducible] Rat.add Rat.mul Rat.sub Rat.inv Rat.ofScientific

/-- C8 counterexample: with the configured multi-word phrase `"cash buyer"`
the score is *not* invariant to extra whitespace between words — an extra
space inside the phrase occurrence removes the hit. -/
theorem match_whitespace_counterexample :
    (matchText [("investor_intent", ["cash buyer"])] "cash buyer" "").score
      ≠ (matchText [("investor_intent", ["cash buyer"])] "cash  buyer" "").score := by
  decide

/-- C8 (amended).  The `match` score is invariant to letter case of the
input text; it is invariant to extra whitespace inserted between words only
when no phrase contains a space (a multi-word phrase hit is destroyed by a
space inserted inside it, see the counterexample); and a phrase occurring
only as a substring of a longer word (`"whole"` in `"wholesaler"`)
contributes no hit and no score. -/
theorem match_invariances :
    (∀ (kw : List (String × List String)) (text text' title title' : String),
        lowerS text = lowerS text' → lowerS title = lowerS title' →
        (matchText kw text title).score = (matchText kw text' title').score)
      ∧ (∀ (kw : List (String × List String)) (text text' title title' : String),
          (∀ e ∈ kw, ∀ ph ∈ e.2, lowerS ph ≠ [] ∧ ∀ c ∈ lowerS ph, c ≠ ' ') →
          ExtraWS (lowerS text) (lowerS text') → ExtraWS (lowerS title) (lowerS title') →
          (matchText kw text title).score = (matchText kw text' title').score)
      ∧ (matchText [("deal_types", ["whole"])] "I am a wholesaler" "wholesaler questions").matched
          = false
      ∧ (matchText [("deal_types", ["whole"])] "I am a wholesaler" "wholesaler questions").score
          = 0
      ∧ (matchText [("deal_types", ["whole"])] "I am a wholesaler" "wholesaler questions").keywords
          = [] := by
  refine ⟨?_, ?_, by decide, by decide, by decide⟩
  · intro kw text text' title title' ht hti
    refine congrArg MatchResult.score (matchText_congr kw text text' title title' ?_)
    intro e _he ph _hph
    rw [ht, hti]
    exact ⟨rfl, rfl⟩
  · intro kw text text' title title' hph hws hwst
    refine congrArg MatchResult.score (matchText_congr kw text text' title title' ?_)
    intro e he ph hph'
    obtain ⟨hne, hsp⟩ := hph e he ph hph'
    exact ⟨countOcc_extraWS _ hne hsp hws, countOcc_extraWS _ hne hsp hwst⟩

/-- C8 witness: changing case and then widening the word gap (single-word
phrase `"b"`) leaves the score unchanged. -/
theorem match_invariances_witness :
    (matchText [("k", ["b"])] "A b" "").score = (matchText [("k", ["b"])] "a b" "").score
      ∧ (matchText [("k", ["b"])] "a b" "").score
          = (matchText [("k", ["b"])] "a  b" "").score := by
  have h := match_invariances
  constructor
  · exact h.1 [("k", ["b"])] "A b" "a b" "" "" (by decide) rfl
  · refine h.2.1 [("k", ["b"])] "a b" "a  b" "" "" (by decide) ?_ (extraWS_refl _)
    have e1 : lowerS "a b" = ['a'] ++ ' ' :: ['b'] := by decide
    have e2 : lowerS "a  b" = ['a'] ++ ' ' :: ' ' :: ['b'] := by decide
    rw [e1, e2]
    exact extraWS_dup_at ['a'] ['b']

end ConcreteEvaluation3

/-! ## `quick_match` vs `match` -/

theorem countWF_ne_zero_searchFrom (p : List Char) :
    ∀ (s : List Char) (w : Bool) (f : ℕ), s.length ≤ f →
      countWF p f s w ≠ 0 → searchFrom p s w = true := by
  intro s
  induction s with
  | nil =>
      intro w f _ hne
      exfalso
      apply hne
      cases f <;> rfl
  | cons c rest ih =>
      intro w f hf hne
      cases f with
      | zero => simp at hf
      | succ g =>
          rw [searchFrom]
          by_cases ho : occursAt p (c :: rest) w = true
          · simp [ho]
          · simp only [countWF, if_neg ho] at hne
            have hr := ih (isWordChar c) g
              (by simp only [List.length_cons] at hf; omega) hne
            simp [hr]

theorem occursAt_append (p s rest : List Char) (w : Bool)
    (hrest : wordAt rest.head? = false) (h : occursAt p s w = true) :
    occursAt p (s ++ rest) w = true := by
  simp only [occursAt, Bool.and_eq_true] at h ⊢
  obtain ⟨⟨hpre, hA⟩, hB⟩ := h
  have hle : p.length ≤ s.length := isPrefixOf_length_le p s hpre
  have hpre2 : p.isPrefixOf (s ++ rest) = true := isPrefixOf_append_right p s rest hpre
  refine ⟨⟨hpre2, hA⟩, ?_⟩
  rw [List.drop_append_of_le_length hle]
  cases hd : s.drop p.length with
  | nil =>
      rw [hd] at hB
      simp only [List.nil_append]
      rw [show wordAt (List.head? ([] : List Char)) = false from rfl] at hB
      rw [hrest]
      exact hB
  | cons d l =>
      rw [hd] at hB
      simp only [List.cons_append, List.head?_cons] at hB ⊢
      exact hB

theorem searchFrom_append_right (p rest : List Char) (hrest : wordAt rest.head? = false) :
    ∀ (s : List Char) (w : Bool), searchFrom p s w = true → searchFrom p (s ++ rest) w = true := by
  intro s
  induction s with
  | nil =>
      intro w h
      exact absurd h (by simp [searchFrom])
  | cons c s₀ ih =>
      intro w h
      rw [List.cons_append, searchFrom]
      by_cases ho : occursAt p (c :: s₀) w = true
      · have hext := occursAt_append p (c :: s₀) rest w hrest ho
        rw [List.cons_append] at hext
        simp [hext]
      · have ho' : occursAt p (c :: s₀) w = false := by
          revert ho; cases occursAt p (c :: s₀) w <;> simp
        rw [searchFrom, ho', Bool.false_or] at h
        simp [ih (isWordChar c) h]

theorem searchFrom_append_left (p s : List Char)
    (h : ∀ w, searchFrom p s w = true) :
    ∀ (u : List Char) (w : Bool), searchFrom p (u ++ s) w = true := by
  intro u
  induction u with
  | nil => intro w; exact h w
  | cons c u' ih =>
      intro w
      rw [List.cons_append, searchFrom]
      simp [ih (isWordChar c)]

theorem searchFrom_space_cons (p v : List Char) (h : searchFrom p v false = true) :
    ∀ w : Bool, searchFrom p (' ' :: v) w = true := by
  intro w
  rw [searchFrom]
  rw [show isWordChar ' ' = false from rfl, h]
  simp

theorem filterMap_mkHit_pos (cat text title : String) (ps : List String) :
    0 < (ps.filterMap (mkHit cat text title)).length ↔
      ∃ ph ∈ ps, phraseHasHit text title ph = true := by
  induction ps with
  | nil => simp
  | cons ph ps ih =>
      by_cases hh : phraseHasHit text title ph = true
      · have hsome : mkHit cat text title ph =
            some ⟨ph, cat, titleCount ph title, bodyCount ph text,
              round2 ((1.5 * (titleCount ph title : ℚ) + 1.0 * (bodyCount ph text : ℚ)) *
                (if cat = "miami_specific" then 1.3 else 1))⟩ := by
          rw [mkHit, if_pos hh]
        rw [List.filterMap_cons, hsome]
        simp [hh]
      · have hnone : mkHit cat text title ph = none := by rw [mkHit, if_neg hh]
        rw [List.filterMap_cons, hnone]
        simp [hh, ih]

theorem claimKeywordHits_pos (kw : List (String × List String)) (text title : String) :
    0 < (claimKeywordHits kw text title).length ↔
      ∃ e ∈ kw, ∃ ph ∈ e.2, phraseHasHit text title ph = true := by
  induction kw with
  | nil => simp [claimKeywordHits]
  | cons e kw ih =>
      rw [claimKeywordHits_cons, List.length_append, add_pos_iff, ih, filterMap_mkHit_pos]
      constructor
      · rintro (⟨ph, hph, hh⟩ | ⟨e', he', hrest⟩)
        · exact ⟨e, List.mem_cons_self _ _, ph, hph, hh⟩
        · exact ⟨e', List.mem_cons_of_mem _ he', hrest⟩
      · rintro ⟨e', he', ph, hph, hh⟩
        rcases List.mem_cons.1 he' with rfl | he'
        · exact Or.inl ⟨ph, hph, hh⟩
        · exact Or.inr ⟨e', he', ph, hph, hh⟩

theorem matched_iff_exists_hit (kw : List (String × List String)) (text title : String) :
    (matchText kw text title).matched = true ↔
      ∃ e ∈ kw, ∃ ph ∈ e.2, phraseHasHit text title ph = true := by
  rw [matchText_pieces]
  simp only [decide_eq_true_eq]
  exact claimKeywordHits_pos kw text title

/-- C9 (amended).  `quick_match` is complete for `match`: whenever `match`
reports a hit (for a taxonomy of nonempty phrases), `quick_match` is true.
The converse fails when a phrase's words span the title/body boundary of
the combined `"{title} {text}"` string, see the counterexample. -/
theorem quick_match_complete (kw : List (String × List String)) (text title : String)
    (hph : ∀ e ∈ kw, ∀ ph ∈ e.2, lowerS ph ≠ [])
    (hm : (matchText kw text title).matched = true) :
    quickMatch kw text title = true := by
  obtain ⟨e, he, ph, hphm, hh⟩ := (matched_iff_exists_hit kw text title).1 hm
  rw [quickMatch, List.any_eq_true]
  refine ⟨e, he, ?_⟩
  rw [List.any_eq_true]
  refine ⟨ph, hphm, ?_⟩
  have hne := hph e he ph hphm
  have hcomb : (title.data ++ ' ' :: text.data).map Char.toLower
      = lowerS title ++ ' ' :: lowerS text := by
    rw [List.map_append, List.map_cons]
    rfl
  rw [hcomb]
  have hnemp : (lowerS ph).isEmpty = false := by
    cases hl : lowerS ph with
    | nil => exact absurd hl hne
    | cons _ _ => rfl
  rw [searchOcc, hnemp]
  simp only [Bool.false_eq_true, if_false]
  rw [phraseHasHit, titleCount, bodyCount] at hh
  simp only [Bool.or_eq_true, decide_eq_true_eq] at hh
  rcases hh with hh | hh
  · -- occurrence in the title: extend to the right with " text"
    rw [countOcc, hnemp] at hh
    simp only [Bool.false_eq_true, if_false] at hh
    have hsf : searchFrom (lowerS ph) (lowerS title) false = true :=
      countWF_ne_zero_searchFrom (lowerS ph) (lowerS title) false (lowerS title).length
        le_rfl (Nat.pos_iff_ne_zero.1 hh)
    exact searchFrom_append_right (lowerS ph) (' ' :: lowerS text) rfl (lowerS title) false hsf
  · -- occurrence in the body: extend to the left with "title "
    rw [countOcc, hnemp] at hh
    simp only [Bool.false_eq_true, if_false] at hh
    have hsf : searchFrom (lowerS ph) (lowerS text) false = true :=
      countWF_ne_zero_searchFrom (lowerS ph) (lowerS text) false (lowerS text).length
        le_rfl (Nat.pos_iff_ne_zero.1 hh)
    exact searchFrom_append_left (lowerS ph) (' ' :: lowerS text)
      (searchFrom_space_cons (lowerS ph) (lowerS text) hsf) (lowerS title) false

/-- C9 counterexample: the phrase `"cash buyer"` spans the title/body
boundary — `quick_match` sees it in the combined string, `match` does not
count it in either field, so the two disagree. -/
theorem quick_match_counterexample :
    quickMatch [("investor_intent", ["cash buyer"])] "buyer here" "need a cash" = true
      ∧ (matchText [("investor_intent", ["cash buyer"])] "buyer here" "need a cash").matched
          = false := by
  constructor
  · decide
  · decide

/-- C9 witness: on a post whose body matches, `match` reports a hit and
`quick_match` agrees. -/
theorem quick_match_complete_witness :
    quickMatch [("k", ["b"])] "a b" "" = true := by
  exact quick_match_complete [("k", ["b"])] "a b" "" (by decide) (by decide)

/-- C7 witness: at `now = 100` with threshold 48 the pending row from time
0 expires while the equally old reviewed row is untouched. -/
theorem expiry_sweep_witness :
    (expireOldOpportunities sampleStore 100 48).2.rows[1]? =
      some ⟨2, "old", "reviewed", 0, 0.8⟩ ∧ expireDefaultHours = 48 := by
  refine ⟨?_, rfl⟩
  exact (expiry_sweep sampleStore 100 48).2.2.2 1 ⟨2, "old", "reviewed", 0, 0.8⟩ rfl
    (by decide)

end RedditMonitor
